import Mathlib

/-!
# Verification of the FERAL label-preparation core

Shallow embedding of the event-to-dense-label conversion engine of the
repository (`prepare_labels.py`) and of the split computation of the
folder-ingestion path (`prepare_folder_dataset.py`).

Modelling conventions:
* Python `float` values are modelled by exact rationals (`ℚ`).  The Python
  literals `0.7`, `0.15`, `30.0` are modelled by the exact rationals
  `7/10`, `3/20`, `30`; `round` (Python 3 round-half-to-even) is modelled by
  `pyRound` and `int` truncation by `pyTrunc`.
* `float(...)` string parsing is modelled by `pyFloat`, covering the decimal
  literal fragment (optional sign, digits, optional fractional part) that the
  claims exercise; exponent and infinity/NaN spellings are outside the model.
* Python `dict`s are modelled by association lists with Python's semantics:
  overwriting a key keeps its original position (`dinsert`), deletion removes
  the entry (`derase`), lookup finds the unique entry (`dlookup`).
* Each tabular row (after schema resolution) is a `Row` of optional string
  cells; a missing column is modelled by the cell being `none`.
-/

attribute [local semireducible] Rat.add Rat.mul Rat.inv Rat.sub

/-- Python whitespace characters recognised by `str.strip` / `\s`. -/
def isPyWs (c : Char) : Bool :=
  c == ' ' || c == '\t' || c == '\n' || c == '\r' || c == '\x0b' || c == '\x0c'

/-- `str.strip()` on a character list. -/
def stripChars (l : List Char) : List Char :=
  ((l.dropWhile isPyWs).reverse.dropWhile isPyWs).reverse

/-- Value of a digit string (most significant first). -/
def digitsVal (l : List Char) : Nat :=
  l.foldl (fun a c => 10 * a + (c.toNat - 48)) 0

/-- Unsigned decimal literal: digits, optionally a dot and more digits,
at least one digit overall.  Models the fragment of Python `float()` that
the conversion engine's inputs exercise. -/
def pyFloatNum (l : List Char) : Option ℚ :=
  let ip := l.takeWhile (fun c => c.isDigit)
  let rest := l.dropWhile (fun c => c.isDigit)
  match rest with
  | [] => if ip.isEmpty then none else some (digitsVal ip : ℚ)
  | '.' :: fp =>
      if fp.all (fun c => c.isDigit) && !(ip.isEmpty && fp.isEmpty) then
        some ((digitsVal ip : ℚ) + (digitsVal fp : ℚ) / ((10 : ℚ) ^ fp.length))
      else none
  | _ => none

/-- Python `float(s)` on a decimal literal (strips surrounding whitespace,
optional sign). -/
def pyFloat (s : String) : Option ℚ :=
  match stripChars s.data with
  | '+' :: rest => pyFloatNum rest
  | '-' :: rest => (pyFloatNum rest).map (fun q => -q)
  | l => pyFloatNum l

/-- `_safe_float` of `prepare_labels.py`: `None` propagates; for a string the
text before the first semicolon (`x.split(";", 1)[0]`) is parsed as a float,
unparsable text giving the default `None`. -/
def safeFloat : Option String → Option ℚ
  | none => none
  | some s => pyFloat (String.mk (s.data.takeWhile (fun c => c ≠ ';')))

/-- Helper of `_norm_name`: `re.sub(r"\s+", "_", ·)` on an already stripped
character list — each maximal whitespace run becomes one underscore. -/
def collapseWs : List Char → List Char
  | [] => []
  | c :: rest =>
      if isPyWs c then
        match rest with
        | [] => ['_']
        | d :: rest2 =>
            if isPyWs d then collapseWs (d :: rest2)
            else '_' :: collapseWs (d :: rest2)
      else c :: collapseWs rest

/-- `_norm_name`: strip, lowercase, collapse whitespace runs to `_`.
(`Char.toLower` models `str.lower` on the ASCII fragment used here.) -/
def normName (s : String) : String :=
  String.mk (collapseWs (stripChars (s.data.map Char.toLower)))

/-- Python's substring test `pat in hay` on character lists. -/
def hasSub : List Char → List Char → Bool
  | [], pat => pat.isEmpty
  | c :: t, pat => pat.isPrefixOf (c :: t) || hasSub t pat

/-- Python 3 `round` on an exact rational: round half to even. -/
def pyRound (q : ℚ) : ℤ :=
  let fl := ⌊q⌋
  if q - fl < 1 / 2 then fl
  else if 1 / 2 < q - fl then fl + 1
  else if fl % 2 = 0 then fl else fl + 1

/-- Python `int` truncation (toward zero) on an exact rational. -/
def pyTrunc (q : ℚ) : ℤ :=
  if q < 0 then -⌊-q⌋ else ⌊q⌋

/-- One resolved tabular row: each semantic column's cell, `none` when the
column is absent from the file. -/
structure Row where
  time : Option String
  behavior : Option String
  status : Option String
  fps : Option String
  total : Option String
  media : Option String
deriving DecidableEq

/-- Association-list lookup (Python `dict` access / `.get`). -/
def dlookup {α : Type} (m : List (String × α)) (k : String) : Option α :=
  (m.find? (fun p => p.1 == k)).map (fun p => p.2)

/-- Python `dict` assignment `m[k] = v`: overwrite in place, else append. -/
def dinsert {α : Type} (m : List (String × α)) (k : String) (v : α) :
    List (String × α) :=
  if m.any (fun p => p.1 == k) then
    m.map (fun p => if p.1 == k then (k, v) else p)
  else m ++ [(k, v)]

/-- Python `dict.pop(k)`'s removal effect. -/
def derase {α : Type} (m : List (String × α)) (k : String) :
    List (String × α) :=
  m.filter (fun p => p.1 != k)

/-- Default FPS constant (`DEFAULT_FPS = 30.0`). -/
def defaultFps : ℚ := 30

/-- The maximum observed event timestamp (the `mx` loop of
`_fps_and_duration`: a parsed time participates when truthy, i.e. non-zero,
and larger than the running maximum; starts at 0). -/
def maxObservedTs (recs : List Row) : ℚ :=
  recs.foldl (fun mx r =>
    match safeFloat r.time with
    | some t => if t ≠ 0 && mx < t then t else mx
    | none => mx) 0

/-- `_fps_and_duration`: first parseable FPS cell (defaulting to 30 when
missing or non-positive), first parseable total-length cell (defaulting to
the maximum truthy observed timestamp when missing or non-positive). -/
def fpsAndDuration (recs : List Row) : ℚ × ℚ :=
  let fps0 := recs.findSome? (fun r => safeFloat r.fps)
  let total0 := recs.findSome? (fun r => safeFloat r.total)
  let fps := match fps0 with
    | some f => if f ≤ 0 then defaultFps else f
    | none => defaultFps
  let total := match total0 with
    | some t => if t ≤ 0 then maxObservedTs recs else t
    | none => maxObservedTs recs
  (fps, total)

/-- The frame count computed in `convert_labels`:
`frames = int(round(fps * total))`. -/
def framesOfFile (recs : List Row) : ℤ :=
  pyRound ((fpsAndDuration recs).1 * (fpsAndDuration recs).2)

/-- The stripped behavior cell, normalized; `none` when empty (the record is
then skipped by every consumer). -/
def behOf (r : Row) : Option String :=
  let b := String.mk (stripChars (r.behavior.getD "").data)
  if b = "" then none else some (normName b)

/-- The uppercased status cell (`str(r.get(col_status, "")).upper()`). -/
def statUpper (r : Row) : List Char :=
  (r.status.getD "").data.map Char.toUpper

/-- `tf` inside the label builders: `max(0, min(int(round(t * fps)), frames - 1))`
(the `max 0` is realised by `Int.toNat`). -/
def toFrame (fps : ℚ) (framesN : Nat) (t : ℚ) : Nat :=
  (min (pyRound (t * fps)) ((framesN : ℤ) - 1)).toNat

/-- Write `v` at every index of `[a, b]` (the STOP-branch range write). -/
def setRange (l : List Nat) (a b : Nat) (v : Nat) : List Nat :=
  (List.range' a (b + 1 - a)).foldl (fun o i => o.set i v) l

/-- One record of `_labels_from_records_single`, acting on the pair
(dense output, open-interval map). -/
def stepSingle (fps : ℚ) (framesN : Nat) (behToId : List (String × Nat))
    (s : List Nat × List (String × Nat)) (r : Row) :
    List Nat × List (String × Nat) :=
  match safeFloat r.time with
  | none => s
  | some t =>
    match behOf r with
    | none => s
    | some beh =>
      let cid := (dlookup behToId beh).getD 0
      let f := toFrame fps framesN t
      let st := statUpper r
      if hasSub st ("START".data) then (s.1, dinsert s.2 beh f)
      else if hasSub st ("STOP".data) then
        match dlookup s.2 beh with
        | some s0 => (setRange s.1 (min s0 f) (max s0 f) cid, derase s.2 beh)
        | none => s
      else (s.1.set f cid, s.2)

/-- `_labels_from_records_single`. -/
def labelsFromRecordsSingle (recs : List Row) (fps : ℚ) (frames : ℤ)
    (behToId : List (String × Nat)) : List Nat :=
  let framesN := (max 0 frames).toNat
  if framesN = 0 then []
  else (recs.foldl (stepSingle fps framesN behToId)
    (List.replicate framesN 0, [])).1

/-- Set bit `cid` of row `i` (the multilabel write `out[ff][cid] = 1`). -/
def setRow (out : List (List Nat)) (i : Nat) (cid : Nat) : List (List Nat) :=
  out.set i ((out.getD i []).set cid 1)

/-- Range variant of `setRow` for the multilabel STOP branch. -/
def setRangeM (out : List (List Nat)) (a b : Nat) (cid : Nat) :
    List (List Nat) :=
  (List.range' a (b + 1 - a)).foldl (fun o i => setRow o i cid) out

/-- One record of `_labels_from_records_multilabel`. -/
def stepMulti (fps : ℚ) (framesN : Nat) (behToId : List (String × Nat))
    (s : List (List Nat) × List (String × Nat)) (r : Row) :
    List (List Nat) × List (String × Nat) :=
  match safeFloat r.time with
  | none => s
  | some t =>
    match behOf r with
    | none => s
    | some beh =>
      match dlookup behToId beh with
      | none => s
      | some cid =>
        let f := toFrame fps framesN t
        let st := statUpper r
        if hasSub st ("START".data) then (s.1, dinsert s.2 beh f)
        else if hasSub st ("STOP".data) then
          match dlookup s.2 beh with
          | some s0 => (setRangeM s.1 (min s0 f) (max s0 f) cid, derase s.2 beh)
          | none => s
        else (setRow s.1 f cid, s.2)

/-- `_labels_from_records_multilabel`. -/
def labelsFromRecordsMulti (recs : List Row) (fps : ℚ) (frames : ℤ)
    (behToId : List (String × Nat)) (K : Nat) : List (List Nat) :=
  let framesN := (max 0 frames).toNat
  if framesN = 0 then []
  else (recs.foldl (stepMulti fps framesN behToId)
    (List.replicate framesN (List.replicate K 0), [])).1

/-- `_collect_all_behaviors`: the set of stripped, normalized, non-empty
behavior cells across all files, sorted (Python `sorted` on a `set`). -/
def collectAllBehaviors (files : List (List Row)) : List String :=
  List.insertionSort (fun a b => a ≤ b)
    ((files.flatMap (fun recs => recs.filterMap behOf)).dedup)

/-- Single-label `beh_to_id`: start from `{"other": 0}` and assign
1, 2, … to the sorted behaviors in order, with `dict` overwrite semantics. -/
def behToIdSingle (beh : List String) : List (String × Nat) :=
  beh.enum.foldl (fun m p => dinsert m p.2 (p.1 + 1)) [("other", 0)]

/-- Multilabel `beh_to_id`: `{b: i for i, b in enumerate(beh)}`. -/
def behToIdMulti (beh : List String) : List (String × Nat) :=
  beh.enum.foldl (fun m p => dinsert m p.2 p.1) []

/-- `Path(media).name` on a POSIX path: the text after the last slash. -/
def pathBasename (s : String) : String :=
  String.mk ((s.data.reverse.takeWhile (fun c => c ≠ '/')).reverse)

/-- `_video_name` (with the media reference modelled as one column): first
non-empty media cell's basename, else the file stem with `.mp4`; `.mp4` is
appended when the name has no dot. -/
def videoName (recs : List Row) (stem : String) : String :=
  let media := recs.findSome? (fun r =>
    let v := String.mk (stripChars (r.media.getD "").data)
    if v = "" then none else some v)
  let name := match media with
    | some m => pathBasename m
    | none => stem ++ ".mp4"
  if name.data.contains '.' then name else name ++ ".mp4"

/-- First-occurrence deduplication (the `seen` loop of `_make_splits`). -/
def firstDedupAux (seen : List String) : List String → List String
  | [] => []
  | v :: vs =>
      if v ∈ seen then firstDedupAux seen vs
      else v :: firstDedupAux (v :: seen) vs

/-- First-occurrence deduplication of a video list. -/
def firstDedup (l : List String) : List String :=
  firstDedupAux [] l

/-- The four output splits. -/
structure Splits where
  train : List String
  val : List String
  test : List String
  inference : List String
deriving DecidableEq

/-- `_make_splits` of `prepare_labels.py` (tabular path; `round` sizing). -/
def makeSplits (videos : List String) : Splits :=
  let uniq := firstDedup videos
  let n := uniq.length
  if n = 0 then ⟨[], [], [], []⟩
  else
    let nTrain := max 1 (pyRound ((n : ℚ) * (7 / 10))).toNat
    let nVal0 := (pyRound ((n : ℚ) * (3 / 20))).toNat
    let nVal := if n < nTrain + nVal0 then n - nTrain else nVal0
    let nTest := n - nTrain - nVal
    ⟨uniq.take nTrain, (uniq.drop nTrain).take nVal,
      ((uniq.drop (nTrain + nVal)).take nTest), uniq⟩

/-- Split computation of `process_folder_structure` (folder path): `int`
truncation sizing, test slice to the end, `inference = list(set(all_videos))`
(modelled as `dedup`, compared as a set by consumers). -/
def folderSplits (allVideos : List String) : Splits :=
  let n := allVideos.length
  let nTrain := max 1 (pyTrunc ((n : ℚ) * (7 / 10))).toNat
  let nVal := (pyTrunc ((n : ℚ) * (3 / 20))).toNat
  ⟨allVideos.take nTrain, (allVideos.drop nTrain).take nVal,
    allVideos.drop (nTrain + nVal), allVideos.dedup⟩

/-- Conversion mode (`--mode` flag: `"multilabel"` or anything else). -/
inductive Mode where
  | single
  | multilabel
deriving DecidableEq

/-- A per-video dense label value: scalar sequence or 0/1-vector sequence. -/
inductive LabelVal where
  | sl (l : List Nat)
  | ml (l : List (List Nat))
deriving DecidableEq

/-- The assembled output descriptor of `convert_labels`. -/
structure ConvOut where
  isMultilabel : Bool
  classNames : List (String × String)
  labels : List (String × LabelVal)
  splits : Splits
deriving DecidableEq

/-- Per-file accumulation step of `convert_labels`: compute fps/duration,
frame count and video name, build the dense sequence, store it under the
video name (`dict` overwrite) and append the name to the video list. -/
def convertStep (mode : Mode) (behToId : List (String × Nat)) (K : Nat)
    (acc : List (String × LabelVal) × List String) (f : String × List Row) :
    List (String × LabelVal) × List String :=
  let recs := f.2
  let fps := (fpsAndDuration recs).1
  let total := (fpsAndDuration recs).2
  let frames : ℤ := pyRound (fps * total)
  let vname := videoName recs f.1
  let lv := match mode with
    | Mode.multilabel =>
        LabelVal.ml (labelsFromRecordsMulti recs fps frames behToId K)
    | Mode.single =>
        LabelVal.sl (labelsFromRecordsSingle recs fps frames behToId)
  (dinsert acc.1 vname lv, acc.2 ++ [vname])

/-- The `beh_to_id` mapping chosen by mode in `convert_labels`. -/
def convertBehToId (mode : Mode) (beh : List String) : List (String × Nat) :=
  match mode with
  | Mode.multilabel => behToIdMulti beh
  | Mode.single => behToIdSingle beh

/-- The output descriptor assembled by `convert_labels` once at least one
behavior was found. -/
def convertOut (mode : Mode) (files : List (String × List Row)) : ConvOut :=
  let beh := collectAllBehaviors (files.map (fun f => f.2))
  let behToId := convertBehToId mode beh
  let acc := files.foldl (convertStep mode behToId beh.length) ([], [])
  { isMultilabel := mode == Mode.multilabel
    classNames := behToId.map (fun p => (toString p.2, p.1))
    labels := acc.1
    splits := makeSplits acc.2 }

/-- `convert_labels` on already-parsed files `(stem, rows)`: `none` models an
aborted run that writes no output descriptor (no files, or no behaviors
found across all files). -/
def convertLabels (mode : Mode) (files : List (String × List Row)) :
    Option ConvOut :=
  if files.isEmpty then none
  else if (collectAllBehaviors (files.map (fun f => f.2))).isEmpty then none
  else some (convertOut mode files)

/-- Scenario A, first row: `(t=1.0, START, "rest")` with FPS 2 and total
length 4 s recorded on the row. -/
def rowA : Row :=
  { time := some "1.0", behavior := some "rest", status := some "START",
    fps := some "2", total := some "4", media := none }

/-- Scenario A, second row: `(t=3.0, STOP, "rest")`. -/
def rowB : Row :=
  { time := some "3.0", behavior := some "rest", status := some "STOP",
    fps := none, total := none, media := none }

/-- C2: in single-label mode, the file with records `(t=1.0, START, "rest")`,
`(t=3.0, STOP, "rest")`, fps = 2 and total duration 4 s converts to a dense
sequence of frameCount = 8 frames in which frames 2..6 carry the class ID 1
assigned to `"rest"` (class ID 1 names `"rest"` in the vocabulary) and
frames 0, 1 and 7 carry 0, the `"other"` class. -/
theorem scenarioA_single_rest_interval :
    (convertLabels Mode.single [("vidA", [rowA, rowB])]).map
        (fun o => (dlookup o.labels "vidA.mp4", dlookup o.classNames "1",
          dlookup o.classNames "0"))
      = some (some (LabelVal.sl [0, 0, 1, 1, 1, 1, 1, 0]),
          some "rest", some "other") := by
  decide

/-- A record whose FPS cell is `"-5"` (parseable but non-positive) and whose
total-length cell is absent. -/
def rowNeg : Row :=
  { time := some "2.0", behavior := some "x", status := none,
    fps := some "-5", total := none, media := none }

/-- A record whose time cell carries a trailing semicolon comment. -/
def rowSemi : Row :=
  { time := some "3.5;note", behavior := some "x", status := some "",
    fps := none, total := none, media := none }

/-- `insertionSort` yields the empty list exactly on the empty list. -/
theorem insertionSort_eq_nil_iff {r : String → String → Prop} [DecidableRel r]
    (l : List String) : List.insertionSort r l = [] ↔ l = [] := by
  constructor
  · intro h
    have := (List.perm_insertionSort r l).length_eq
    simpa [h, List.length_eq_zero] using this.symm
  · intro h
    simp [h]

/-- The collected vocabulary is empty exactly when no record of any file has
a non-empty behavior cell. -/
theorem collectAllBehaviors_eq_nil_iff (files : List (List Row)) :
    collectAllBehaviors files = [] ↔ ∀ recs ∈ files, ∀ r ∈ recs, behOf r = none := by
  unfold collectAllBehaviors
  rw [insertionSort_eq_nil_iff, List.dedup_eq_nil, List.flatMap_eq_nil_iff]
  constructor
  · intro h recs hrecs r hr
    exact (List.filterMap_eq_nil_iff.mp (h recs hrecs)) r hr
  · intro h recs hrecs
    exact List.filterMap_eq_nil_iff.mpr (h recs hrecs)

/-- C7: the tabular conversion produces no output descriptor exactly when no
non-empty behavior name occurs in any record of any input file (vacuously
including the no-input-files case); every other input still yields an
output. -/
theorem abort_iff_no_behaviors (mode : Mode) (files : List (String × List Row)) :
    convertLabels mode files = none
      ↔ ∀ f ∈ files, ∀ r ∈ f.2, behOf r = none := by
  have hcoll := collectAllBehaviors_eq_nil_iff (files.map (fun f => f.2))
  have hiff : (∀ recs ∈ files.map (fun f => f.2), ∀ r ∈ recs, behOf r = none)
      ↔ ∀ f ∈ files, ∀ r ∈ f.2, behOf r = none := by
    constructor
    · intro h f hmem r hr
      exact h f.2 (List.mem_map_of_mem _ hmem) r hr
    · intro h recs hrecs r hr
      obtain ⟨f, hmemf, hfeq⟩ := List.mem_map.mp hrecs
      exact h f hmemf r (by rw [hfeq]; exact hr)
  unfold convertLabels
  split_ifs with h1 h2
  · have : files = [] := List.isEmpty_iff.mp h1
    subst this
    simp
  · exact iff_of_true rfl (hiff.mp (hcoll.mp (List.isEmpty_iff.mp h2)))
  · refine iff_of_false (by simp) ?_
    intro h
    exact h2 (List.isEmpty_iff.mpr (hcoll.mpr (hiff.mpr h)))

/-- C8: the frame count is `round(fps * totalDuration)`; when no FPS cell of
any record parses to a positive value the FPS used is the default 30, and
when no total-length cell of any record parses to a positive value the
duration used is the maximum observed event timestamp. -/
theorem frame_count_formula_and_defaults (recs : List Row)
    (hfps : ∀ r ∈ recs, ∀ q, safeFloat r.fps = some q → q ≤ 0)
    (htot : ∀ r ∈ recs, ∀ q, safeFloat r.total = some q → q ≤ 0) :
    framesOfFile recs = pyRound ((fpsAndDuration recs).1 * (fpsAndDuration recs).2)
    ∧ (fpsAndDuration recs).1 = defaultFps
    ∧ (fpsAndDuration recs).2 = maxObservedTs recs := by
  refine ⟨rfl, ?_, ?_⟩
  · unfold fpsAndDuration
    cases hf : recs.findSome? (fun r => safeFloat r.fps) with
    | none => simp [hf]
    | some f =>
        obtain ⟨r, hr, hfr⟩ := List.exists_of_findSome?_eq_some hf
        simp [hf, hfps r hr f hfr]
  · unfold fpsAndDuration
    cases ht : recs.findSome? (fun r => safeFloat r.total) with
    | none => simp [ht]
    | some t =>
        obtain ⟨r, hr, htr⟩ := List.exists_of_findSome?_eq_some ht
        simp [ht, htot r hr t htr]

/-- Witness for `frame_count_formula_and_defaults`: a file whose only record
has FPS cell `"-5"` and no total-length cell. -/
theorem frame_count_formula_and_defaults_witness :
    framesOfFile [rowNeg]
      = pyRound ((fpsAndDuration [rowNeg]).1 * (fpsAndDuration [rowNeg]).2)
    ∧ (fpsAndDuration [rowNeg]).1 = defaultFps
    ∧ (fpsAndDuration [rowNeg]).2 = maxObservedTs [rowNeg] :=
  frame_count_formula_and_defaults [rowNeg] (by decide) (by decide)

/-- `takeWhile` consumes exactly a prefix that satisfies the predicate when
the next character fails it. -/
theorem takeWhile_append_sentinel (p : Char → Bool) (l₁ l₂ : List Char)
    (c : Char) (h : ∀ x ∈ l₁, p x = true) (hc : p c = false) :
    (l₁ ++ c :: l₂).takeWhile p = l₁ := by
  induction l₁ with
  | nil => simp [List.takeWhile_cons, hc]
  | cons a t ih =>
      have ha := h a (by simp)
      simp only [List.cons_append, List.takeWhile_cons, ha, if_true]
      rw [ih (fun x hx => h x (by simp [hx]))]

/-- C9: `_safe_float` parses only the text before the first semicolon, so
`"3.5;note"` parses as 3.5; in general, for any semicolon-free prefix the
parse equals the plain float parse of that prefix; consequently a record
with time cell `"3.5;note"` is not skipped — it writes its label at the
frame computed from 3.5. -/
theorem semicolon_prefix_parsing (a bPart : String) (h : ';' ∉ a.data) :
    safeFloat (some "3.5;note") = some (7 / 2)
    ∧ safeFloat (some (a ++ ";" ++ bPart)) = pyFloat a
    ∧ (labelsFromRecordsSingle [rowSemi] 1 10 [("x", 1)]).getD 4 0 = 1 := by
  refine ⟨by decide, ?_, by decide⟩
  show pyFloat (String.mk (((a ++ ";" ++ bPart)).data.takeWhile
    (fun c => c ≠ ';'))) = pyFloat a
  have hdata : (a ++ ";" ++ bPart).data = a.data ++ ';' :: bPart.data := by
    simp
  rw [hdata, takeWhile_append_sentinel _ _ _ _ ?_ (by simp)]
  intro x hx
  have hxne : x ≠ ';' := fun hx2 => h (hx2 ▸ hx)
  simpa using hxne

/-- Witness for `semicolon_prefix_parsing` at the prefix `"3.5"`. -/
theorem semicolon_prefix_parsing_witness :
    safeFloat (some ("3.5" ++ ";" ++ "note")) = pyFloat "3.5" :=
  (semicolon_prefix_parsing "3.5" "note" (by decide)).2.1

/-- Writing a fixed value at a list of indices preserves the length. -/
theorem length_foldl_set (idx : List Nat) (l : List Nat) (v : Nat) :
    (idx.foldl (fun o i => o.set i v) l).length = l.length := by
  induction idx generalizing l with
  | nil => rfl
  | cons i t ih => simp [List.foldl_cons, ih, List.length_set]

/-- Every element after writing `v` at a list of indices is `v` or an
original element. -/
theorem mem_foldl_set (idx : List Nat) (l : List Nat) (v x : Nat)
    (hx : x ∈ idx.foldl (fun o i => o.set i v) l) : x = v ∨ x ∈ l := by
  induction idx generalizing l with
  | nil => exact Or.inr hx
  | cons i t ih =>
      rcases ih (l.set i v) hx with h | h
      · exact Or.inl h
      · rcases List.mem_or_eq_of_mem_set h with h2 | h2
        · exact Or.inr h2
        · exact Or.inl h2

/-- The class ID used by a single-label write is 0 or one of the vocabulary
map's values. -/
theorem dlookup_getD_zero_mem (m : List (String × Nat)) (k : String) :
    (dlookup m k).getD 0 = 0 ∨ (dlookup m k).getD 0 ∈ m.map (fun p => p.2) := by
  unfold dlookup
  cases hf : m.find? (fun p => p.1 == k) with
  | none => simp
  | some p =>
      right
      simp only [Option.map_some', Option.getD_some]
      exact List.mem_map_of_mem _ (List.mem_of_find?_eq_some hf)

/-- The output component of one single-label step: unchanged, a range write
of a looked-up class ID, or a point write of a looked-up class ID. -/
theorem stepSingle_out_cases (fps : ℚ) (N : Nat) (bid : List (String × Nat))
    (s : List Nat × List (String × Nat)) (r : Row) :
    (stepSingle fps N bid s r).1 = s.1
    ∨ (∃ beh a b, (stepSingle fps N bid s r).1
        = setRange s.1 a b ((dlookup bid beh).getD 0))
    ∨ (∃ beh f, (stepSingle fps N bid s r).1
        = s.1.set f ((dlookup bid beh).getD 0)) := by
  unfold stepSingle
  dsimp only
  split
  · exact Or.inl rfl
  · split
    · exact Or.inl rfl
    · split
      · exact Or.inl rfl
      · split
        · split
          · right
            left
            exact ⟨_, _, _, rfl⟩
          · exact Or.inl rfl
        · right
          right
          exact ⟨_, _, rfl⟩

/-- Shape invariant of the single-label fold: the dense output keeps its
length and all its elements are 0 or vocabulary IDs. -/
theorem foldl_stepSingle_invariant (recs : List Row) (fps : ℚ) (N : Nat)
    (bid : List (String × Nat)) (out : List Nat) (act : List (String × Nat))
    (hlen : out.length = N)
    (hmem : ∀ x ∈ out, x = 0 ∨ x ∈ bid.map (fun p => p.2)) :
    (recs.foldl (stepSingle fps N bid) (out, act)).1.length = N
    ∧ ∀ x ∈ (recs.foldl (stepSingle fps N bid) (out, act)).1,
        x = 0 ∨ x ∈ bid.map (fun p => p.2) := by
  induction recs generalizing out act with
  | nil => exact ⟨hlen, hmem⟩
  | cons r t ih =>
      rw [List.foldl_cons]
      have hout := stepSingle_out_cases fps N bid (out, act) r
      obtain ⟨o2, a2, hstep⟩ :
          ∃ o2 a2, stepSingle fps N bid (out, act) r = (o2, a2) :=
        ⟨_, _, rfl⟩
      rw [hstep] at hout ⊢
      rcases hout with h | ⟨beh, a, b, h⟩ | ⟨beh, f, h⟩
      · dsimp only at h
        subst h
        exact ih _ a2 hlen hmem
      · dsimp only at h
        subst h
        refine ih _ a2 ?_ ?_
        · exact (length_foldl_set _ _ _).trans hlen
        · intro x hx
          rcases mem_foldl_set _ _ _ _ hx with h2 | h2
          · exact h2 ▸ dlookup_getD_zero_mem bid beh
          · exact hmem x h2
      · dsimp only at h
        subst h
        refine ih _ a2 ?_ ?_
        · simpa [List.length_set] using hlen
        · intro x hx
          rcases List.mem_or_eq_of_mem_set hx with h2 | h2
          · exact hmem x h2
          · exact h2 ▸ dlookup_getD_zero_mem bid beh

/-- Well-formedness of multilabel rows: width `K`, entries 0 or 1. -/
def rowsWellformed (K : Nat) (out : List (List Nat)) : Prop :=
  ∀ row ∈ out, row.length = K ∧ ∀ x ∈ row, x = 0 ∨ x = 1

/-- A multilabel point write preserves row well-formedness. -/
theorem setRow_wellformed (out : List (List Nat)) (i cid K : Nat)
    (h : rowsWellformed K out) : rowsWellformed K (setRow out i cid) := by
  unfold setRow
  by_cases hi : i < out.length
  · intro row hrow
    rcases List.mem_or_eq_of_mem_set hrow with h2 | h2
    · exact h row h2
    · subst h2
      have hgd : out.getD i [] = out[i] := by
        simp [List.getD_eq_getElem?_getD, List.getElem?_eq_getElem hi]
      have hmem : out[i] ∈ out := List.getElem_mem hi
      refine ⟨?_, ?_⟩
      · rw [hgd]
        simpa [List.length_set] using (h _ hmem).1
      · intro x hx
        rw [hgd] at hx
        rcases List.mem_or_eq_of_mem_set hx with h3 | h3
        · exact (h _ hmem).2 x h3
        · exact Or.inr h3
  · rw [List.set_eq_of_length_le (Nat.le_of_not_lt hi)]
    exact h

/-- A multilabel point write preserves the number of rows. -/
theorem setRow_length (out : List (List Nat)) (i cid : Nat) :
    (setRow out i cid).length = out.length := by
  unfold setRow
  exact List.length_set _ _ _

/-- A multilabel range write preserves the number of rows. -/
theorem setRangeM_length (out : List (List Nat)) (a b cid : Nat) :
    (setRangeM out a b cid).length = out.length := by
  unfold setRangeM
  generalize List.range' a (b + 1 - a) = idx
  induction idx generalizing out with
  | nil => rfl
  | cons i t ih => simp [List.foldl_cons, ih, setRow_length]

/-- A multilabel range write preserves row well-formedness. -/
theorem setRangeM_wellformed (out : List (List Nat)) (a b cid K : Nat)
    (h : rowsWellformed K out) : rowsWellformed K (setRangeM out a b cid) := by
  unfold setRangeM
  generalize List.range' a (b + 1 - a) = idx
  induction idx generalizing out with
  | nil => exact h
  | cons i t ih =>
      rw [List.foldl_cons]
      exact ih _ (setRow_wellformed out i cid K h)

/-- The output component of one multilabel step: unchanged, a range write,
or a point write. -/
theorem stepMulti_out_cases (fps : ℚ) (N : Nat) (bid : List (String × Nat))
    (s : List (List Nat) × List (String × Nat)) (r : Row) :
    (stepMulti fps N bid s r).1 = s.1
    ∨ (∃ cid a b, (stepMulti fps N bid s r).1 = setRangeM s.1 a b cid)
    ∨ (∃ cid f, (stepMulti fps N bid s r).1 = setRow s.1 f cid) := by
  unfold stepMulti
  dsimp only
  split
  · exact Or.inl rfl
  · split
    · exact Or.inl rfl
    · split
      · exact Or.inl rfl
      · split
        · exact Or.inl rfl
        · split
          · split
            · right
              left
              exact ⟨_, _, _, rfl⟩
            · exact Or.inl rfl
          · right
            right
            exact ⟨_, _, rfl⟩

/-- Shape invariant of the multilabel fold. -/
theorem foldl_stepMulti_invariant (recs : List Row) (fps : ℚ) (N : Nat)
    (bid : List (String × Nat)) (out : List (List Nat))
    (act : List (String × Nat)) (K : Nat)
    (hlen : out.length = N) (hrows : rowsWellformed K out) :
    (recs.foldl (stepMulti fps N bid) (out, act)).1.length = N
    ∧ rowsWellformed K (recs.foldl (stepMulti fps N bid) (out, act)).1 := by
  induction recs generalizing out act with
  | nil => exact ⟨hlen, hrows⟩
  | cons r t ih =>
      rw [List.foldl_cons]
      have hout := stepMulti_out_cases fps N bid (out, act) r
      obtain ⟨o2, a2, hstep⟩ :
          ∃ o2 a2, stepMulti fps N bid (out, act) r = (o2, a2) :=
        ⟨_, _, rfl⟩
      rw [hstep] at hout ⊢
      rcases hout with h | ⟨cid, a, b, h⟩ | ⟨cid, f, h⟩
      · dsimp only at h
        subst h
        exact ih _ a2 hlen hrows
      · dsimp only at h
        subst h
        exact ih _ a2 ((setRangeM_length _ _ _ _).trans hlen)
          (setRangeM_wellformed _ _ _ _ _ hrows)
      · dsimp only at h
        subst h
        exact ih _ a2 ((setRow_length _ _ _).trans hlen)
          (setRow_wellformed _ _ _ _ hrows)

/-- Rounding a non-negative rational is non-negative. -/
theorem pyRound_nonneg (q : ℚ) (h : 0 ≤ q) : 0 ≤ pyRound q := by
  unfold pyRound
  have h0 : (0 : ℤ) ≤ ⌊q⌋ := Int.floor_nonneg.mpr h
  dsimp only
  split_ifs <;> omega

/-- The FPS resolved by `_fps_and_duration` is positive. -/
theorem fpsAndDuration_fst_pos (recs : List Row) : 0 < (fpsAndDuration recs).1 := by
  unfold fpsAndDuration
  dsimp only
  cases hf0 : recs.findSome? (fun r => safeFloat r.fps) with
  | none => norm_num [defaultFps]
  | some f =>
      by_cases hf : f ≤ 0
      · simp only [hf, if_true]
        norm_num [defaultFps]
      · simp only [hf, if_false]
        exact lt_of_not_le hf

/-- The maximum-timestamp fold stays non-negative. -/
theorem maxObservedTs_nonneg (recs : List Row) : 0 ≤ maxObservedTs recs := by
  unfold maxObservedTs
  suffices haux : ∀ (l : List Row) (mx : ℚ), 0 ≤ mx → 0 ≤ l.foldl (fun mx r =>
      match safeFloat r.time with
      | some t => if t ≠ 0 && mx < t then t else mx
      | none => mx) mx from haux recs 0 le_rfl
  intro l
  induction l with
  | nil => exact fun mx h => h
  | cons r t ih =>
      intro mx h
      rw [List.foldl_cons]
      apply ih
      dsimp only
      cases hts : safeFloat r.time with
      | none => exact h
      | some tq =>
          by_cases hc : (tq ≠ 0 && mx < tq) = true
          · simp only [hc, if_true]
            have := (Bool.and_eq_true _ _).mp hc
            exact le_of_lt (lt_of_le_of_lt h (by simpa using this.2))
          · simp only [hc, if_false]
            exact h

/-- The duration resolved by `_fps_and_duration` is non-negative. -/
theorem fpsAndDuration_snd_nonneg (recs : List Row) :
    0 ≤ (fpsAndDuration recs).2 := by
  unfold fpsAndDuration
  dsimp only
  cases ht0 : recs.findSome? (fun r => safeFloat r.total) with
  | none => exact maxObservedTs_nonneg recs
  | some t =>
      by_cases ht : t ≤ 0
      · simp only [ht, if_true]
        exact maxObservedTs_nonneg recs
      · simp only [ht, if_false]
        exact le_of_lt (lt_of_not_le ht)

/-- The pipeline frame count is never negative. -/
theorem framesOfFile_nonneg (recs : List Row) : 0 ≤ framesOfFile recs :=
  pyRound_nonneg _ (mul_nonneg (fpsAndDuration_fst_pos recs).le
    (fpsAndDuration_snd_nonneg recs))

/-- C1: both dense builders return a sequence of exactly the requested frame
count (empty at 0); every single-label element is 0 or a vocabulary ID, and
every multilabel element is a 0/1 vector of exactly K entries.  The frame
count computed by the pipeline is never negative, so `(max 0 frames).toNat`
is the frame count itself there. -/
theorem dense_sequences_wellformed (recs : List Row) (fps : ℚ) (frames : ℤ)
    (behToId : List (String × Nat)) (K : Nat) :
    (labelsFromRecordsSingle recs fps frames behToId).length = (max 0 frames).toNat
    ∧ (∀ x ∈ labelsFromRecordsSingle recs fps frames behToId,
        x = 0 ∨ x ∈ behToId.map (fun p => p.2))
    ∧ (labelsFromRecordsMulti recs fps frames behToId K).length
        = (max 0 frames).toNat
    ∧ (∀ row ∈ labelsFromRecordsMulti recs fps frames behToId K,
        row.length = K ∧ ∀ x ∈ row, x = 0 ∨ x = 1)
    ∧ 0 ≤ framesOfFile recs := by
  unfold labelsFromRecordsSingle labelsFromRecordsMulti
  by_cases hN : (max 0 frames).toNat = 0
  · simp [hN, framesOfFile_nonneg recs]
  · have hs := foldl_stepSingle_invariant recs fps ((max 0 frames).toNat) behToId
      (List.replicate ((max 0 frames).toNat) 0) []
      (List.length_replicate _ _)
      (fun x hx => Or.inl (List.eq_of_mem_replicate hx))
    have hm := foldl_stepMulti_invariant recs fps ((max 0 frames).toNat) behToId
      (List.replicate ((max 0 frames).toNat) (List.replicate K 0)) [] K
      (List.length_replicate _ _)
      (fun row hrow => by
        have hr := List.eq_of_mem_replicate hrow
        subst hr
        exact ⟨List.length_replicate _ _,
          fun x hx => Or.inl (List.eq_of_mem_replicate hx)⟩)
    simp only [hN, if_false]
    exact ⟨hs.1, hs.2, hm.1, hm.2, framesOfFile_nonneg recs⟩

/-- Ten distinct video names (Scenario E). -/
def ex10Videos : List String :=
  ["v01", "v02", "v03", "v04", "v05", "v06", "v07", "v08", "v09", "v10"]

/-- `pyRound` rounds to the floor or to the floor plus one. -/
theorem pyRound_le_floor_add_one (q : ℚ) : pyRound q ≤ ⌊q⌋ + 1 := by
  unfold pyRound
  dsimp only
  split_ifs <;> omega

/-- On non-negative rationals, `int` truncation is the floor. -/
theorem pyTrunc_of_nonneg (q : ℚ) (h : 0 ≤ q) : pyTrunc q = ⌊q⌋ := by
  unfold pyTrunc
  rw [if_neg (not_lt.mpr h)]

/-- The tabular train-slice size never exceeds the number of videos. -/
theorem tabular_train_le (n : Nat) (hn : 1 ≤ n) :
    max 1 (pyRound ((n : ℚ) * (7 / 10))).toNat ≤ n := by
  have hn' : (1 : ℚ) ≤ (n : ℚ) := by exact_mod_cast hn
  have hfl : ⌊(n : ℚ) * (7 / 10)⌋ < (n : ℤ) := by
    rw [Int.floor_lt]
    push_cast
    nlinarith
  have hr := pyRound_le_floor_add_one ((n : ℚ) * (7 / 10))
  have h2 : (pyRound ((n : ℚ) * (7 / 10))).toNat ≤ n := by
    rw [Int.toNat_le]
    omega
  omega

/-- The folder train-slice size never exceeds the number of videos. -/
theorem folder_train_le (n : Nat) (hn : 1 ≤ n) :
    max 1 (pyTrunc ((n : ℚ) * (7 / 10))).toNat ≤ n := by
  have hn' : (1 : ℚ) ≤ (n : ℚ) := by exact_mod_cast hn
  have h0 : (0 : ℚ) ≤ (n : ℚ) * (7 / 10) := by positivity
  rw [pyTrunc_of_nonneg _ h0]
  have hfl : ⌊(n : ℚ) * (7 / 10)⌋ < (n : ℤ) := by
    rw [Int.floor_lt]
    push_cast
    nlinarith
  have h2 : (⌊(n : ℚ) * (7 / 10)⌋).toNat ≤ n := by
    rw [Int.toNat_le]
    omega
  omega

/-- Folder sizing: train and val floors together never exceed `n`. -/
theorem folder_train_val_le (n : Nat) (hn : 1 ≤ n) :
    max 1 (pyTrunc ((n : ℚ) * (7 / 10))).toNat
      + (pyTrunc ((n : ℚ) * (3 / 20))).toNat ≤ n := by
  have h07 : (0 : ℚ) ≤ (n : ℚ) * (7 / 10) := by positivity
  have h015 : (0 : ℚ) ≤ (n : ℚ) * (3 / 20) := by positivity
  rw [pyTrunc_of_nonneg _ h07, pyTrunc_of_nonneg _ h015]
  rcases Nat.lt_or_ge n 2 with h2 | h2
  · have : n = 1 := by omega
    subst this
    decide
  · have h2' : (2 : ℚ) ≤ (n : ℚ) := by exact_mod_cast h2
    have hA : (1 : ℤ) ≤ ⌊(n : ℚ) * (7 / 10)⌋ := by
      rw [Int.le_floor]
      push_cast
      nlinarith
    have hAB : ⌊(n : ℚ) * (7 / 10)⌋ + ⌊(n : ℚ) * (3 / 20)⌋ ≤ (n : ℤ) := by
      have hA2 := Int.floor_le ((n : ℚ) * (7 / 10))
      have hB2 := Int.floor_le ((n : ℚ) * (3 / 20))
      have hq : (⌊(n : ℚ) * (7 / 10)⌋ : ℚ) + (⌊(n : ℚ) * (3 / 20)⌋ : ℚ) ≤ (n : ℚ) := by
        nlinarith
      exact_mod_cast hq
    have hB0 : (0 : ℤ) ≤ ⌊(n : ℚ) * (3 / 20)⌋ := Int.floor_nonneg.mpr h015
    omega

/-- C3 counterexample: on ten distinct videos the folder-ingestion path
produces val-size 1 and test-size 2 (it truncates `10 * 0.15 = 1.5` to 1),
not the claimed val=2, test=1. -/
theorem folder_sizing_counterexample :
    ¬ ((folderSplits ex10Videos).val.length = 2
      ∧ (folderSplits ex10Videos).test.length = 1) := by
  decide

/-- C3 (amended): the tabular path sizes its splits by
`n_train = max(1, round(0.7 n))`, `n_val = round(0.15 n)` reduced to
`n - n_train` when the two exceed `n`, and `n_test = n - n_train - n_val`,
giving 7/2/1 with inference length 10 at `n = 10`; the folder path instead
truncates, `n_train = max(1, int(0.7 n))`, `n_val = int(0.15 n)`,
`n_test = n - n_train - n_val`, giving 7/1/2 at `n = 10`. -/
theorem split_sizing (videos : List String) (h : firstDedup videos ≠ [])
    (l : List String) (hl : l ≠ []) :
    ((makeSplits videos).train.length
      = max 1 (pyRound (((firstDedup videos).length : ℚ) * (7 / 10))).toNat
    ∧ (makeSplits videos).val.length
      = (if (firstDedup videos).length
            < max 1 (pyRound (((firstDedup videos).length : ℚ) * (7 / 10))).toNat
              + (pyRound (((firstDedup videos).length : ℚ) * (3 / 20))).toNat
         then (firstDedup videos).length
            - max 1 (pyRound (((firstDedup videos).length : ℚ) * (7 / 10))).toNat
         else (pyRound (((firstDedup videos).length : ℚ) * (3 / 20))).toNat)
    ∧ (makeSplits videos).test.length
      = (firstDedup videos).length - (makeSplits videos).train.length
          - (makeSplits videos).val.length
    ∧ (makeSplits videos).inference.length = (firstDedup videos).length)
    ∧ ((folderSplits l).train.length
        = max 1 (pyTrunc ((l.length : ℚ) * (7 / 10))).toNat
      ∧ (folderSplits l).val.length = (pyTrunc ((l.length : ℚ) * (3 / 20))).toNat
      ∧ (folderSplits l).test.length
        = l.length - (folderSplits l).train.length - (folderSplits l).val.length)
    ∧ (makeSplits ex10Videos).train.length = 7
    ∧ (makeSplits ex10Videos).val.length = 2
    ∧ (makeSplits ex10Videos).test.length = 1
    ∧ (makeSplits ex10Videos).inference.length = 10
    ∧ (folderSplits ex10Videos).train.length = 7
    ∧ (folderSplits ex10Videos).val.length = 1
    ∧ (folderSplits ex10Videos).test.length = 2 := by
  have hn : 1 ≤ (firstDedup videos).length := by
    rcases Nat.eq_zero_or_pos (firstDedup videos).length with h0 | h0
    · exact absurd (List.length_eq_zero.mp h0) h
    · exact h0
  have hln : 1 ≤ l.length := by
    rcases Nat.eq_zero_or_pos l.length with h0 | h0
    · exact absurd (List.length_eq_zero.mp h0) hl
    · exact h0
  refine ⟨?_, ?_, by decide, by decide, by decide, by decide, by decide,
    by decide, by decide⟩
  · unfold makeSplits
    rw [if_neg (by omega)]
    dsimp only
    set n := (firstDedup videos).length with hndef
    set nTrain := max 1 (pyRound ((n : ℚ) * (7 / 10))).toNat with hTdef
    set nVal0 := (pyRound ((n : ℚ) * (3 / 20))).toNat with hVdef
    set nVal := if n < nTrain + nVal0 then n - nTrain else nVal0 with hVal
    have hT := tabular_train_le n hn
    have hVle : nVal ≤ n - nTrain := by
      rw [hVal]
      split_ifs with hc
      · omega
      · omega
    refine ⟨?_, ?_, ?_, rfl⟩
    · rw [List.length_take]
      omega
    · rw [List.length_take, List.length_drop]
      omega
    · rw [List.length_take, List.length_drop, List.length_take,
        List.length_take, List.length_drop]
      omega
  · unfold folderSplits
    dsimp only
    set n := l.length with hndef
    set nTrain := max 1 (pyTrunc ((n : ℚ) * (7 / 10))).toNat with hTdef
    set nVal := (pyTrunc ((n : ℚ) * (3 / 20))).toNat with hVdef
    have hT := folder_train_le n hln
    have hTV := folder_train_val_le n hln
    refine ⟨?_, ?_, ?_⟩
    · rw [List.length_take]
      omega
    · rw [List.length_take, List.length_drop]
      omega
    · rw [List.length_drop, List.length_take, List.length_take,
        List.length_drop]
      omega

/-- Witness for `split_sizing` on a three-entry list with one duplicate and
a singleton folder list. -/
theorem split_sizing_witness :
    firstDedup ["a", "b", "a"] ≠ []
    ∧ (makeSplits ex10Videos).val.length = 2
    ∧ (folderSplits ex10Videos).val.length = 1 :=
  ⟨by decide,
    (split_sizing ["a", "b", "a"] (by decide) ["x"] (by decide)).2.2.2.1,
    (split_sizing ["a", "b", "a"] (by decide) ["x"] (by decide)).2.2.2.2.2.2.2.1⟩

/-- Membership in the dedup accumulator: kept iff present and unseen. -/
theorem mem_firstDedupAux (x : String) (seen l : List String) :
    x ∈ firstDedupAux seen l ↔ x ∈ l ∧ x ∉ seen := by
  induction l generalizing seen with
  | nil => simp [firstDedupAux]
  | cons v vs ih =>
      by_cases hv : v ∈ seen
      · rw [firstDedupAux, if_pos hv, ih]
        constructor
        · exact fun hx => ⟨List.mem_cons_of_mem v hx.1, hx.2⟩
        · rintro ⟨hx1, hx2⟩
          rcases List.mem_cons.mp hx1 with rfl | hx1'
          · exact absurd hv hx2
          · exact ⟨hx1', hx2⟩
      · rw [firstDedupAux, if_neg hv]
        constructor
        · intro hx
          rcases List.mem_cons.mp hx with rfl | hx'
          · exact ⟨List.mem_cons_self _ _, hv⟩
          · have h2 := (ih (v :: seen)).mp hx'
            exact ⟨List.mem_cons_of_mem v h2.1,
              fun hseen => h2.2 (List.mem_cons_of_mem v hseen)⟩
        · rintro ⟨hx1, hx2⟩
          rcases List.mem_cons.mp hx1 with rfl | hx1'
          · exact List.mem_cons_self _ _
          · by_cases hxv : x = v
            · subst hxv
              exact List.mem_cons_self _ _
            · exact List.mem_cons_of_mem v ((ih (v :: seen)).mpr
                ⟨hx1', fun hm => (List.mem_cons.mp hm).elim hxv hx2⟩)

/-- First-occurrence deduplication yields a duplicate-free list. -/
theorem firstDedupAux_nodup (seen l : List String) :
    (firstDedupAux seen l).Nodup := by
  induction l generalizing seen with
  | nil => simp [firstDedupAux]
  | cons v vs ih =>
      by_cases hv : v ∈ seen
      · simpa [firstDedupAux, hv] using ih seen
      · rw [firstDedupAux, if_neg hv]
        refine List.nodup_cons.mpr ⟨?_, ih (v :: seen)⟩
        intro hmem
        exact ((mem_firstDedupAux v (v :: seen) vs).mp hmem).2
          (List.mem_cons_self _ _)

/-- The deduplicated video list has no duplicates. -/
theorem firstDedup_nodup (l : List String) : (firstDedup l).Nodup :=
  firstDedupAux_nodup [] l

/-- The three tabular split slices concatenate back to the deduplicated
video list. -/
theorem makeSplits_partition (videos : List String) :
    (makeSplits videos).train ++ (makeSplits videos).val
      ++ (makeSplits videos).test = firstDedup videos := by
  unfold makeSplits
  by_cases h0 : (firstDedup videos).length = 0
  · rw [if_pos h0]
    have h1 := List.length_eq_zero.mp h0
    simp [h1]
  · rw [if_neg h0]
    dsimp only
    set u := firstDedup videos with hu
    set n := u.length with hn
    set nTrain := max 1 (pyRound ((n : ℚ) * (7 / 10))).toNat with hT
    set nVal0 := (pyRound ((n : ℚ) * (3 / 20))).toNat with hV0
    set nVal := if n < nTrain + nVal0 then n - nTrain else nVal0 with hV
    have htest : (u.drop (nTrain + nVal)).take (n - nTrain - nVal)
        = u.drop (nTrain + nVal) := by
      apply List.take_of_length_le
      rw [List.length_drop]
      omega
    rw [htest, List.append_assoc, ← List.drop_drop, List.take_append_drop,
      List.take_append_drop]

/-- The three folder split slices concatenate back to the (shuffled) video
list. -/
theorem folderSplits_partition (l : List String) :
    (folderSplits l).train ++ (folderSplits l).val ++ (folderSplits l).test
      = l := by
  unfold folderSplits
  dsimp only
  rw [List.append_assoc, ← List.drop_drop, List.take_append_drop,
    List.take_append_drop]

/-- The tabular inference split is the full deduplicated list. -/
theorem makeSplits_inference (videos : List String) :
    (makeSplits videos).inference = firstDedup videos := by
  unfold makeSplits
  by_cases h0 : (firstDedup videos).length = 0
  · rw [if_pos h0]
    exact (List.length_eq_zero.mp h0).symm
  · rw [if_neg h0]

/-- C4: in the tabular path, train/val/test concatenate to the
first-occurrence deduplicated video list (which is duplicate-free, so the
three are pairwise disjoint and cover each video exactly once) and
inference is exactly that list; in the folder path, for any shuffle of the
video list the three slices concatenate to the shuffled list (duplicate-free
whenever the videos are), and inference equals the full video set. -/
theorem splits_partition_inference (videos allVideos shuffled : List String)
    (hsh : shuffled.Perm allVideos) (hnd : allVideos.Nodup) :
    ((makeSplits videos).train ++ (makeSplits videos).val
        ++ (makeSplits videos).test = firstDedup videos)
    ∧ (firstDedup videos).Nodup
    ∧ (makeSplits videos).inference = firstDedup videos
    ∧ ((folderSplits shuffled).train ++ (folderSplits shuffled).val
        ++ (folderSplits shuffled).test = shuffled)
    ∧ shuffled.Nodup
    ∧ (folderSplits shuffled).inference.toFinset = allVideos.toFinset := by
  refine ⟨makeSplits_partition videos, firstDedup_nodup videos,
    makeSplits_inference videos, folderSplits_partition shuffled,
    hsh.nodup_iff.mpr hnd, ?_⟩
  have h1 : (folderSplits shuffled).inference = shuffled.dedup := rfl
  rw [h1]
  exact (List.toFinset.ext fun x => List.mem_dedup).trans
    (List.toFinset_eq_of_perm _ _ hsh)

/-- Witness for `splits_partition_inference` on a two-video shuffle. -/
theorem splits_partition_inference_witness :
    (["y", "x"] : List String).Perm ["x", "y"]
    ∧ (["x", "y"] : List String).Nodup
    ∧ (folderSplits ["y", "x"]).inference.toFinset
        = (["x", "y"] : List String).toFinset :=
  ⟨by decide, by decide,
    (splits_partition_inference ["a", "b", "a"] ["x", "y"] ["y", "x"]
      (by decide) (by decide)).2.2.2.2.2⟩

/-- A record whose behavior is literally named `"other"`. -/
def rowOther : Row :=
  { time := some "1.0", behavior := some "other", status := none,
    fps := none, total := none, media := none }

/-- C5 counterexample: when a behavior is literally named `"other"`, the
single-label vocabulary loop overwrites the reserved entry, so `"other"`
maps to its sorted ID 1, not to 0. -/
theorem other_reserved_id_counterexample :
    dlookup (behToIdSingle (collectAllBehaviors [[rowOther]])) "other" = some 1
    ∧ ¬ dlookup (behToIdSingle (collectAllBehaviors [[rowOther]])) "other"
        = some 0 := by
  decide

/-- The collected vocabulary is invariant under permutations of the input
file list. -/
theorem collectAllBehaviors_perm (files files' : List (List Row))
    (hp : files'.Perm files) :
    collectAllBehaviors files' = collectAllBehaviors files := by
  unfold collectAllBehaviors
  haveI : IsAntisymm String (fun a b => a ≤ b) := ⟨fun _ _ h1 h2 => le_antisymm h1 h2⟩
  have h1 : List.Perm (files'.flatMap (fun recs => recs.filterMap behOf)).dedup
      (files.flatMap (fun recs => recs.filterMap behOf)).dedup :=
    (hp.flatMap_right _).dedup
  exact List.eq_of_perm_of_sorted
    ((List.perm_insertionSort _ _).trans (h1.trans
      (List.perm_insertionSort _ _).symm))
    (List.sorted_insertionSort _ _) (List.sorted_insertionSort _ _)

/-- The collected vocabulary is sorted and duplicate-free, and contains
exactly the normalized non-empty behavior names of the input files. -/
theorem collectAllBehaviors_spec (files : List (List Row)) :
    List.Sorted (fun a b => a ≤ b) (collectAllBehaviors files)
    ∧ (collectAllBehaviors files).Nodup
    ∧ ∀ b, b ∈ collectAllBehaviors files
        ↔ ∃ recs ∈ files, ∃ r ∈ recs, behOf r = some b := by
  refine ⟨List.sorted_insertionSort _ _,
    (List.perm_insertionSort _ _).nodup_iff.mpr (List.nodup_dedup _), ?_⟩
  intro b
  unfold collectAllBehaviors
  rw [(List.perm_insertionSort _ _).mem_iff, List.mem_dedup, List.mem_flatMap]
  constructor
  · rintro ⟨recs, hrecs, hmem⟩
    obtain ⟨r, hr, hbr⟩ := List.mem_filterMap.mp hmem
    exact ⟨recs, hrecs, r, hr, hbr⟩
  · rintro ⟨recs, hrecs, r, hr, hbr⟩
    exact ⟨recs, hrecs, List.mem_filterMap.mpr ⟨r, hr, hbr⟩⟩

/-- Inserting a key absent from a dict appends the pair. -/
theorem dinsert_fresh {α : Type} (m : List (String × α)) (k : String) (v : α)
    (h : ∀ q ∈ m, q.1 ≠ k) : dinsert m k v = m ++ [(k, v)] := by
  unfold dinsert
  rw [if_neg]
  intro hany
  obtain ⟨q, hq, hqk⟩ := List.any_eq_true.mp hany
  exact h q hq (by simpa using hqk)

/-- Folding the ID-assignment loop over fresh, duplicate-free keys appends
the enumerated pairs in order. -/
theorem foldl_dinsert_enumFrom (beh : List String) (j : Nat)
    (m : List (String × Nat))
    (hfresh : ∀ b ∈ beh, ∀ q ∈ m, q.1 ≠ b) (hnd : beh.Nodup) :
    (beh.enumFrom j).foldl (fun m p => dinsert m p.2 (p.1 + 1)) m
      = m ++ (beh.enumFrom j).map (fun p => (p.2, p.1 + 1)) := by
  induction beh generalizing j m with
  | nil => simp [List.enumFrom]
  | cons b bs ih =>
      rw [List.enumFrom_cons, List.foldl_cons,
        dinsert_fresh m b (j + 1) (fun q hq => hfresh b (List.mem_cons_self _ _) q hq)]
      have hb : b ∉ bs := (List.nodup_cons.mp hnd).1
      rw [ih (j + 1) (m ++ [(b, j + 1)]) ?_ (List.nodup_cons.mp hnd).2]
      · rw [List.map_cons, List.append_assoc]
        rfl
      · intro b' hb' q hq
        rcases List.mem_append.mp hq with hq1 | hq1
        · exact hfresh b' (List.mem_cons_of_mem b hb') q hq1
        · rw [List.mem_singleton.mp hq1]
          dsimp only
          intro he
          exact hb (he ▸ hb')

/-- Explicit form of the single-label vocabulary when `"other"` is not a
collected behavior name: the reserved entry followed by the sorted names
paired with IDs 1, 2, …. -/
theorem behToIdSingle_eq (beh : List String) (hnd : beh.Nodup)
    (hother : "other" ∉ beh) :
    behToIdSingle beh
      = ("other", 0) :: (beh.enumFrom 0).map (fun p => (p.2, p.1 + 1)) := by
  unfold behToIdSingle
  rw [List.enum_eq_enumFrom, foldl_dinsert_enumFrom beh 0 [("other", 0)] ?_ hnd]
  · rfl
  · intro b hb q hq
    rw [List.mem_singleton.mp hq]
    dsimp only
    intro he
    exact hother (he ▸ hb)

/-- Unfolding lookup over a cons cell of a dict. -/
theorem dlookup_cons {α : Type} (k2 : String) (v : α) (m : List (String × α))
    (k : String) :
    dlookup ((k2, v) :: m) k = if k2 == k then some v else dlookup m k := by
  by_cases h : (k2 == k) = true
  · simp [dlookup, List.find?_cons, h]
  · simp [dlookup, List.find?_cons, h]

/-- Looking up the `i`-th key of an enumerated map returns its assigned ID. -/
theorem dlookup_enumFrom_map (beh : List String) :
    ∀ (j i : Nat), beh.Nodup → ∀ (hi : i < beh.length),
    dlookup ((beh.enumFrom j).map (fun p => (p.2, p.1 + 1))) (beh.get ⟨i, hi⟩)
      = some (j + i + 1) := by
  induction beh with
  | nil =>
      intro j i hnd hi
      exact absurd hi (by simp)
  | cons b bs ih =>
      intro j i hnd hi
      rw [List.enumFrom_cons, List.map_cons]
      dsimp only
      cases i with
      | zero =>
          have hget : (b :: bs).get ⟨0, hi⟩ = b := rfl
          rw [hget, dlookup_cons]
          simp
      | succ i2 =>
          have hi2 : i2 < bs.length := by
            simpa using hi
          have hget : (b :: bs).get ⟨i2 + 1, hi⟩ = bs.get ⟨i2, hi2⟩ := rfl
          have hbne : (b == bs.get ⟨i2, hi2⟩) = false := by
            rw [beq_eq_false_iff_ne]
            intro he
            exact (List.nodup_cons.mp hnd).1 (he ▸ List.get_mem bs i2 hi2)
          rw [hget, dlookup_cons, if_neg (by rw [hbne]; exact Bool.false_ne_true)]
          rw [ih (j + 1) i2 (List.nodup_cons.mp hnd).2 hi2]
          congr 1
          omega

/-- C5 (amended): the vocabulary (and hence `class_names`) is invariant
under permutation of the input file list; the collected names are the
alphabetically sorted union of normalized behavior names over all files;
and, provided `"other"` is not itself a collected behavior name, the
single-label map sends `"other"` to 0 and the `i`-th sorted name to
`i + 1`. -/
theorem vocabulary_invariance_and_structure (files files' : List (List Row))
    (hp : files'.Perm files)
    (hother : "other" ∉ collectAllBehaviors files) :
    collectAllBehaviors files' = collectAllBehaviors files
    ∧ (∀ (mode : Mode) (fs fs' : List (String × List Row)), fs'.Perm fs →
        (convertOut mode fs').classNames = (convertOut mode fs).classNames)
    ∧ List.Sorted (fun a b => a ≤ b) (collectAllBehaviors files)
    ∧ (∀ b, b ∈ collectAllBehaviors files
        ↔ ∃ recs ∈ files, ∃ r ∈ recs, behOf r = some b)
    ∧ dlookup (behToIdSingle (collectAllBehaviors files)) "other" = some 0
    ∧ ∀ i (hi : i < (collectAllBehaviors files).length),
        dlookup (behToIdSingle (collectAllBehaviors files))
          ((collectAllBehaviors files).get ⟨i, hi⟩) = some (i + 1) := by
  have hspec := collectAllBehaviors_spec files
  have hnd := hspec.2.1
  refine ⟨collectAllBehaviors_perm files files' hp, ?_, hspec.1, hspec.2.2,
    ?_, ?_⟩
  · intro mode fs fs' hfs
    show (convertBehToId mode
        (collectAllBehaviors (fs'.map (fun f => f.2)))).map
          (fun p => (toString p.2, p.1))
      = (convertBehToId mode
        (collectAllBehaviors (fs.map (fun f => f.2)))).map
          (fun p => (toString p.2, p.1))
    rw [collectAllBehaviors_perm _ _ (hfs.map _)]
  · rw [behToIdSingle_eq _ hnd hother, dlookup_cons, if_pos (by simp)]
  · intro i hi
    rw [behToIdSingle_eq _ hnd hother, dlookup_cons, if_neg ?_]
    · rw [dlookup_enumFrom_map _ 0 i hnd hi]
      congr 1
      omega
    · simp only [beq_iff_eq]
      intro he
      exact hother (he ▸ List.get_mem _ i hi)

/-- Witness for `vocabulary_invariance_and_structure` on two swapped
single-record files. -/
theorem vocabulary_invariance_witness :
    collectAllBehaviors [[rowB], [rowA]] = collectAllBehaviors [[rowA], [rowB]]
    ∧ "other" ∉ collectAllBehaviors [[rowA], [rowB]] :=
  ⟨(vocabulary_invariance_and_structure [[rowA], [rowB]] [[rowB], [rowA]]
      (by decide) (by decide)).1, by decide⟩

/-- Lookup distributes over dict concatenation. -/
theorem dlookup_append {α : Type} (m1 m2 : List (String × α)) (k : String) :
    dlookup (m1 ++ m2) k
      = match dlookup m1 k with
        | some v => some v
        | none => dlookup m2 k := by
  induction m1 with
  | nil => simp [dlookup]
  | cons p m1' ih =>
      obtain ⟨k2, v⟩ := p
      rw [List.cons_append, dlookup_cons, dlookup_cons, ih]
      by_cases h : (k2 == k) = true
      · simp [h]
      · simp [h]

/-- Overwriting key `k2` in place does not affect lookups of other keys. -/
theorem dlookup_map_overwrite_ne {α : Type} (m : List (String × α))
    (k2 : String) (v : α) (k : String) (h : k2 ≠ k) :
    dlookup (m.map (fun p => if p.1 == k2 then (k2, v) else p)) k
      = dlookup m k := by
  induction m with
  | nil => rfl
  | cons p m' ih =>
      obtain ⟨a, w⟩ := p
      rw [List.map_cons]
      by_cases ha : ((a, w).1 == k2) = true
      · have ha' : a = k2 := by simpa using ha
        rw [if_pos ha, dlookup_cons, dlookup_cons]
        have hak : (k2 == k) = false := beq_eq_false_iff_ne.mpr h
        have hak2 : (a == k) = false := by
          rw [ha']
          exact hak
        rw [hak, hak2]
        simp only [Bool.false_eq_true, if_false]
        exact ih
      · rw [if_neg ha, dlookup_cons, dlookup_cons]
        by_cases hak : (a == k) = true
        · simp [hak]
        · have hak2 : (a == k) = false := by
            simpa using hak
          rw [hak2]
          simp only [Bool.false_eq_true, if_false]
          exact ih

/-- Overwriting key `k2` in place makes it look up to the new value, as long
as the key occurs. -/
theorem dlookup_map_overwrite_self {α : Type} (m : List (String × α))
    (k2 : String) (v : α) (hany : m.any (fun p => p.1 == k2) = true) :
    dlookup (m.map (fun p => if p.1 == k2 then (k2, v) else p)) k2
      = some v := by
  induction m with
  | nil => simp at hany
  | cons p m' ih =>
      obtain ⟨a, w⟩ := p
      rw [List.map_cons]
      by_cases ha : ((a, w).1 == k2) = true
      · rw [if_pos ha, dlookup_cons, if_pos (by simp)]
      · have ha2 : (a == k2) = false := by
          simpa using ha
        rw [if_neg ha, dlookup_cons, ha2]
        simp only [Bool.false_eq_true, if_false]
        apply ih
        rw [List.any_cons] at hany
        simpa [ha2] using hany

/-- `dict` assignment looks up to the assigned value. -/
theorem dlookup_dinsert_self {α : Type} (m : List (String × α)) (k2 : String)
    (v : α) : dlookup (dinsert m k2 v) k2 = some v := by
  unfold dinsert
  by_cases hany : (m.any (fun p => p.1 == k2)) = true
  · rw [if_pos hany]
    exact dlookup_map_overwrite_self m k2 v hany
  · rw [if_neg hany, dlookup_append]
    have hfalse : m.any (fun p => p.1 == k2) = false :=
      Bool.eq_false_iff.mpr hany
    have hnone : dlookup m k2 = none := by
      unfold dlookup
      rw [List.find?_eq_none.mpr (List.any_eq_false.mp hfalse)]
      rfl
    rw [hnone, dlookup_cons, if_pos (by simp)]

/-- `dict` assignment does not affect lookups of other keys. -/
theorem dlookup_dinsert_ne {α : Type} (m : List (String × α)) (k2 : String)
    (v : α) (k : String) (h : k2 ≠ k) :
    dlookup (dinsert m k2 v) k = dlookup m k := by
  unfold dinsert
  by_cases hany : (m.any (fun p => p.1 == k2)) = true
  · rw [if_pos hany]
    exact dlookup_map_overwrite_ne m k2 v k h
  · rw [if_neg hany, dlookup_append]
    cases hm : dlookup m k with
    | some w => rfl
    | none =>
        rw [dlookup_cons, if_neg (by simp [beq_eq_false_iff_ne.mpr h])]
        rfl

/-- `dict.pop` of one key does not affect lookups of other keys. -/
theorem dlookup_derase_ne {α : Type} (m : List (String × α)) (k2 k : String)
    (h : k2 ≠ k) : dlookup (derase m k2) k = dlookup m k := by
  unfold derase
  induction m with
  | nil => rfl
  | cons p m' ih =>
      obtain ⟨a, w⟩ := p
      by_cases ha : ((a, w).1 != k2) = true
      · rw [List.filter_cons, if_pos ha, dlookup_cons, dlookup_cons]
        by_cases hak : (a == k) = true
        · rw [hak]
          simp only [if_true]
        · have hak2 : (a == k) = false := by
            simpa using hak
          rw [hak2]
          simp only [Bool.false_eq_true, if_false]
          exact ih
      · rw [List.filter_cons, if_neg ha, dlookup_cons]
        have ha' : a = k2 := by
          simpa using ha
        have hak : (a == k) = false := by
          rw [ha']
          exact beq_eq_false_iff_ne.mpr h
        rw [hak]
        simp only [Bool.false_eq_true, if_false]
        exact ih

/-- Removing a key makes its lookup fail. -/
theorem dlookup_derase_self {α : Type} (m : List (String × α)) (k2 : String) :
    dlookup (derase m k2) k2 = none := by
  unfold derase dlookup
  rw [List.find?_eq_none.mpr]
  · rfl
  · intro x hx
    have h2 := (List.mem_filter.mp hx).2
    simpa using h2

/-- A record processed as a START event for behavior `b`: parseable time,
behavior normalizing to `b`, and `START` occurring in the uppercased
status. -/
def isStartEvt (b : String) (r : Row) : Bool :=
  (safeFloat r.time).isSome && (behOf r == some b)
    && hasSub (statUpper r) ("START".data)

/-- A record processed as a STOP event for behavior `b` (the `elif` branch:
`STOP` occurs but `START` does not). -/
def isStopEvt (b : String) (r : Row) : Bool :=
  (safeFloat r.time).isSome && (behOf r == some b)
    && !hasSub (statUpper r) ("START".data)
    && hasSub (statUpper r) ("STOP".data)

/-- One single-label step on two states sharing the output and agreeing on
all open intervals except behavior `b` keeps the outputs equal and the
agreement, provided the record is not a STOP event for `b`. -/
theorem stepSingle_agree (b : String) (fps : ℚ) (N : Nat)
    (bid : List (String × Nat)) (r : Row) (hstop : isStopEvt b r = false)
    (out : List Nat) (act1 act2 : List (String × Nat))
    (hag : ∀ k, k ≠ b → dlookup act1 k = dlookup act2 k) :
    (stepSingle fps N bid (out, act1) r).1
      = (stepSingle fps N bid (out, act2) r).1
    ∧ ∀ k, k ≠ b → dlookup (stepSingle fps N bid (out, act1) r).2 k
        = dlookup (stepSingle fps N bid (out, act2) r).2 k := by
  unfold stepSingle
  cases hts : safeFloat r.time with
  | none => exact ⟨rfl, hag⟩
  | some t =>
      cases hbeh : behOf r with
      | none => exact ⟨rfl, hag⟩
      | some beh =>
          dsimp only
          by_cases hstart : hasSub (statUpper r) ("START".data) = true
          · simp only [hstart, if_true]
            refine ⟨by trivial, ?_⟩
            intro k hk
            by_cases hbk : beh = k
            · subst hbk
              rw [dlookup_dinsert_self, dlookup_dinsert_self]
            · rw [dlookup_dinsert_ne _ _ _ _ hbk, dlookup_dinsert_ne _ _ _ _ hbk]
              exact hag k hk
          · have hstart2 : hasSub (statUpper r) ("START".data) = false :=
              Bool.eq_false_iff.mpr hstart
            by_cases hstop2 : hasSub (statUpper r) ("STOP".data) = true
            · have hbne : beh ≠ b := by
                intro he
                subst he
                have hcontra : isStopEvt beh r = true := by
                  simp [isStopEvt, hts, hbeh, hstart2, hstop2]
                rw [hstop] at hcontra
                exact Bool.false_ne_true hcontra
              simp only [hstart2, Bool.false_eq_true, if_false, hstop2, if_true]
              rw [hag beh hbne]
              cases hd : dlookup act2 beh with
              | none => exact ⟨rfl, hag⟩
              | some s0 =>
                  refine ⟨by trivial, ?_⟩
                  intro k hk
                  by_cases hbk : beh = k
                  · subst hbk
                    rw [dlookup_derase_self, dlookup_derase_self]
                  · rw [dlookup_derase_ne _ _ _ hbk, dlookup_derase_ne _ _ _ hbk]
                    exact hag k hk
            · have hstop3 : hasSub (statUpper r) ("STOP".data) = false :=
                Bool.eq_false_iff.mpr hstop2
              simp only [hstart2, hstop3, Bool.false_eq_true, if_false]
              exact ⟨by trivial, hag⟩

/-- Folding the single-label builder over records containing no STOP event
for `b` gives the same dense output for any two open-interval states that
agree outside `b`. -/
theorem foldl_stepSingle_agree (b : String) (fps : ℚ) (N : Nat)
    (bid : List (String × Nat)) (post : List Row)
    (hstop : ∀ r ∈ post, isStopEvt b r = false) :
    ∀ (out : List Nat) (act1 act2 : List (String × Nat)),
    (∀ k, k ≠ b → dlookup act1 k = dlookup act2 k) →
    (post.foldl (stepSingle fps N bid) (out, act1)).1
      = (post.foldl (stepSingle fps N bid) (out, act2)).1 := by
  induction post with
  | nil =>
      intro out act1 act2 hag
      rfl
  | cons r t ih =>
      intro out act1 act2 hag
      rw [List.foldl_cons, List.foldl_cons]
      have hr := stepSingle_agree b fps N bid r
        (hstop r (List.mem_cons_self _ _)) out act1 act2 hag
      obtain ⟨o1, a1, h1⟩ :
          ∃ o1 a1, stepSingle fps N bid (out, act1) r = (o1, a1) := ⟨_, _, rfl⟩
      obtain ⟨o2, a2, h2⟩ :
          ∃ o2 a2, stepSingle fps N bid (out, act2) r = (o2, a2) := ⟨_, _, rfl⟩
      rw [h1, h2] at hr ⊢
      dsimp only at hr
      rw [hr.1]
      exact ih (fun r2 hr2 => hstop r2 (List.mem_cons_of_mem _ hr2)) o2 a1 a2 hr.2

/-- A START event for `b` only records the opening frame: the output is kept
and the open-interval map gains an entry for `b`. -/
theorem stepSingle_of_start (b : String) (fps : ℚ) (N : Nat)
    (bid : List (String × Nat)) (r : Row) (h : isStartEvt b r = true)
    (s : List Nat × List (String × Nat)) :
    ∃ f, stepSingle fps N bid s r = (s.1, dinsert s.2 b f) := by
  unfold isStartEvt at h
  rw [Bool.and_eq_true, Bool.and_eq_true] at h
  unfold stepSingle
  cases hts : safeFloat r.time with
  | none =>
      rw [hts] at h
      simp at h
  | some t =>
      cases hbeh : behOf r with
      | none =>
          rw [hbeh] at h
          simp at h
      | some beh =>
          rw [hbeh] at h
          have hbb : beh = b := by
            simpa using h.1.2
          dsimp only
          rw [if_pos h.2]
          exact ⟨toFrame fps N t, by rw [hbb]⟩

/-- Multilabel analogue of `stepSingle_agree`. -/
theorem stepMulti_agree (b : String) (fps : ℚ) (N : Nat)
    (bid : List (String × Nat)) (r : Row) (hstop : isStopEvt b r = false)
    (out : List (List Nat)) (act1 act2 : List (String × Nat))
    (hag : ∀ k, k ≠ b → dlookup act1 k = dlookup act2 k) :
    (stepMulti fps N bid (out, act1) r).1
      = (stepMulti fps N bid (out, act2) r).1
    ∧ ∀ k, k ≠ b → dlookup (stepMulti fps N bid (out, act1) r).2 k
        = dlookup (stepMulti fps N bid (out, act2) r).2 k := by
  unfold stepMulti
  cases hts : safeFloat r.time with
  | none => exact ⟨rfl, hag⟩
  | some t =>
      cases hbeh : behOf r with
      | none => exact ⟨rfl, hag⟩
      | some beh =>
          dsimp only
          cases hbid : dlookup bid beh with
          | none => exact ⟨rfl, hag⟩
          | some cid =>
              dsimp only
              by_cases hstart : hasSub (statUpper r) ("START".data) = true
              · simp only [hstart, if_true]
                refine ⟨by trivial, ?_⟩
                intro k hk
                by_cases hbk : beh = k
                · subst hbk
                  rw [dlookup_dinsert_self, dlookup_dinsert_self]
                · rw [dlookup_dinsert_ne _ _ _ _ hbk,
                    dlookup_dinsert_ne _ _ _ _ hbk]
                  exact hag k hk
              · have hstart2 : hasSub (statUpper r) ("START".data) = false :=
                  Bool.eq_false_iff.mpr hstart
                by_cases hstop2 : hasSub (statUpper r) ("STOP".data) = true
                · have hbne : beh ≠ b := by
                    intro he
                    subst he
                    have hcontra : isStopEvt beh r = true := by
                      simp [isStopEvt, hts, hbeh, hstart2, hstop2]
                    rw [hstop] at hcontra
                    exact Bool.false_ne_true hcontra
                  simp only [hstart2, Bool.false_eq_true, if_false, hstop2,
                    if_true]
                  rw [hag beh hbne]
                  cases hd : dlookup act2 beh with
                  | none => exact ⟨by trivial, hag⟩
                  | some s0 =>
                      refine ⟨by trivial, ?_⟩
                      intro k hk
                      by_cases hbk : beh = k
                      · subst hbk
                        rw [dlookup_derase_self, dlookup_derase_self]
                      · rw [dlookup_derase_ne _ _ _ hbk,
                          dlookup_derase_ne _ _ _ hbk]
                        exact hag k hk
                · have hstop3 : hasSub (statUpper r) ("STOP".data) = false :=
                    Bool.eq_false_iff.mpr hstop2
                  simp only [hstart2, hstop3, Bool.false_eq_true, if_false]
                  exact ⟨by trivial, hag⟩

/-- Multilabel analogue of `foldl_stepSingle_agree`. -/
theorem foldl_stepMulti_agree (b : String) (fps : ℚ) (N : Nat)
    (bid : List (String × Nat)) (post : List Row)
    (hstop : ∀ r ∈ post, isStopEvt b r = false) :
    ∀ (out : List (List Nat)) (act1 act2 : List (String × Nat)),
    (∀ k, k ≠ b → dlookup act1 k = dlookup act2 k) →
    (post.foldl (stepMulti fps N bid) (out, act1)).1
      = (post.foldl (stepMulti fps N bid) (out, act2)).1 := by
  induction post with
  | nil =>
      intro out act1 act2 hag
      rfl
  | cons r t ih =>
      intro out act1 act2 hag
      rw [List.foldl_cons, List.foldl_cons]
      have hr := stepMulti_agree b fps N bid r
        (hstop r (List.mem_cons_self _ _)) out act1 act2 hag
      obtain ⟨o1, a1, h1⟩ :
          ∃ o1 a1, stepMulti fps N bid (out, act1) r = (o1, a1) := ⟨_, _, rfl⟩
      obtain ⟨o2, a2, h2⟩ :
          ∃ o2 a2, stepMulti fps N bid (out, act2) r = (o2, a2) := ⟨_, _, rfl⟩
      rw [h1, h2] at hr ⊢
      dsimp only at hr
      rw [hr.1]
      exact ih (fun r2 hr2 => hstop r2 (List.mem_cons_of_mem _ hr2)) o2 a1 a2 hr.2

/-- In multilabel mode a START event for `b` either does nothing (behavior
outside the vocabulary) or only records the opening frame. -/
theorem stepMulti_of_start (b : String) (fps : ℚ) (N : Nat)
    (bid : List (String × Nat)) (r : Row) (h : isStartEvt b r = true)
    (s : List (List Nat) × List (String × Nat)) :
    stepMulti fps N bid s r = s
    ∨ ∃ f, stepMulti fps N bid s r = (s.1, dinsert s.2 b f) := by
  unfold isStartEvt at h
  rw [Bool.and_eq_true, Bool.and_eq_true] at h
  unfold stepMulti
  cases hts : safeFloat r.time with
  | none =>
      rw [hts] at h
      simp at h
  | some t =>
      cases hbeh : behOf r with
      | none =>
          rw [hbeh] at h
          simp at h
      | some beh =>
          rw [hbeh] at h
          have hbb : beh = b := by
            simpa using h.1.2
          dsimp only
          cases hbid : dlookup bid beh with
          | none => exact Or.inl rfl
          | some cid =>
              dsimp only
              have h2 : hasSub (statUpper r) ['S', 'T', 'A', 'R', 'T'] = true :=
                h.2
              rw [if_pos h2]
              exact Or.inr ⟨toFrame fps N t, by rw [hbb]⟩

/-- C6: a START event for behavior `b` with no later STOP event for `b`
produces no label writes at all: dropping the event leaves the dense
sequence unchanged, in both the single-label and the multilabel variant. -/
theorem unmatched_start_produces_no_writes (b : String) (pre post : List Row)
    (r0 : Row) (fps : ℚ) (frames : ℤ) (bid : List (String × Nat)) (K : Nat)
    (hstart : isStartEvt b r0 = true)
    (hstop : ∀ r ∈ post, isStopEvt b r = false) :
    labelsFromRecordsSingle (pre ++ r0 :: post) fps frames bid
      = labelsFromRecordsSingle (pre ++ post) fps frames bid
    ∧ labelsFromRecordsMulti (pre ++ r0 :: post) fps frames bid K
      = labelsFromRecordsMulti (pre ++ post) fps frames bid K := by
  unfold labelsFromRecordsSingle labelsFromRecordsMulti
  by_cases hN : (max 0 frames).toNat = 0
  · simp [hN]
  · simp only [hN, if_false]
    constructor
    · rw [List.foldl_append, List.foldl_append, List.foldl_cons]
      obtain ⟨out, act, hs⟩ :
          ∃ out act, pre.foldl (stepSingle fps ((max 0 frames).toNat) bid)
            (List.replicate ((max 0 frames).toNat) 0, []) = (out, act) :=
        ⟨_, _, rfl⟩
      rw [hs]
      obtain ⟨f0, hstep⟩ := stepSingle_of_start b fps _ bid r0 hstart (out, act)
      rw [hstep]
      exact foldl_stepSingle_agree b fps _ bid post hstop out
        (dinsert act b f0) act
        (fun k hk => dlookup_dinsert_ne _ _ _ _ (Ne.symm hk))
    · rw [List.foldl_append, List.foldl_append, List.foldl_cons]
      obtain ⟨out, act, hs⟩ :
          ∃ out act, pre.foldl (stepMulti fps ((max 0 frames).toNat) bid)
            (List.replicate ((max 0 frames).toNat)
              (List.replicate K 0), []) = (out, act) :=
        ⟨_, _, rfl⟩
      rw [hs]
      rcases stepMulti_of_start b fps _ bid r0 hstart (out, act) with h | ⟨f0, hstep⟩
      · rw [h]
      · rw [hstep]
        exact foldl_stepMulti_agree b fps _ bid post hstop out
          (dinsert act b f0) act
          (fun k hk => dlookup_dinsert_ne _ _ _ _ (Ne.symm hk))

/-- A START record for behavior `"dig"` with no matching STOP. -/
def rowDig : Row :=
  { time := some "1.0", behavior := some "dig", status := some "START",
    fps := none, total := none, media := none }

/-- Witness for `unmatched_start_produces_no_writes`: a lone unmatched START
for `"dig"` yields the same dense sequence as no event at all. -/
theorem unmatched_start_witness :
    isStartEvt "dig" rowDig = true
    ∧ labelsFromRecordsSingle ([] ++ rowDig :: []) 2 8 [("dig", 1)]
        = labelsFromRecordsSingle ([] ++ []) 2 8 [("dig", 1)] :=
  ⟨by decide,
    (unmatched_start_produces_no_writes "dig" [] [] rowDig 2 8 [("dig", 1)] 3
      (by decide) (by decide)).1⟩

/-- The output-map key contributed by one file. -/
def fileVname (f : String × List Row) : String :=
  videoName f.2 f.1

/-- The dense label value contributed by one file. -/
def fileLabel (mode : Mode) (bid : List (String × Nat)) (K : Nat)
    (f : String × List Row) : LabelVal :=
  match mode with
  | Mode.multilabel =>
      LabelVal.ml (labelsFromRecordsMulti f.2 (fpsAndDuration f.2).1
        (pyRound ((fpsAndDuration f.2).1 * (fpsAndDuration f.2).2)) bid K)
  | Mode.single =>
      LabelVal.sl (labelsFromRecordsSingle f.2 (fpsAndDuration f.2).1
        (pyRound ((fpsAndDuration f.2).1 * (fpsAndDuration f.2).2)) bid)

/-- `convertStep` stores exactly the file's key/value pair. -/
theorem convertStep_eq (mode : Mode) (bid : List (String × Nat)) (K : Nat)
    (acc : List (String × LabelVal) × List String) (f : String × List Row) :
    convertStep mode bid K acc f
      = (dinsert acc.1 (fileVname f) (fileLabel mode bid K f),
          acc.2 ++ [fileVname f]) := by
  cases mode <;> rfl

/-- Lookup after a fold of `dict` assignments: the last written value for
the key wins; keys never written fall through to the initial dict. -/
theorem dlookup_foldl_dinsert {α : Type} (ps : List (String × α)) :
    ∀ (m : List (String × α)) (k : String),
    dlookup (ps.foldl (fun m2 p => dinsert m2 p.1 p.2) m) k
      = match (ps.filter (fun p => p.1 == k)).getLast? with
        | some p => some p.2
        | none => dlookup m k := by
  induction ps with
  | nil =>
      intro m k
      simp
  | cons p t ih =>
      intro m k
      rw [List.foldl_cons, ih, List.filter_cons]
      by_cases hk : (p.1 == k) = true
      · rw [if_pos hk]
        have hk' : p.1 = k := by
          simpa using hk
        cases hl : (t.filter (fun p => p.1 == k)).getLast? with
        | some q =>
            have hne : t.filter (fun p => p.1 == k) ≠ [] := by
              intro he
              rw [he] at hl
              exact Option.noConfusion hl
            obtain ⟨q2, t2, ht2⟩ := List.exists_cons_of_ne_nil hne
            rw [ht2, List.getLast?_cons_cons, ← ht2, hl]
        | none =>
            have he : t.filter (fun p => p.1 == k) = [] :=
              List.getLast?_eq_none_iff.mp hl
            rw [he, List.getLast?_singleton]
            subst hk'
            rw [dlookup_dinsert_self]
      · rw [if_neg hk]
        have hk' : p.1 ≠ k := by
          simpa using hk
        cases hl : (t.filter (fun p => p.1 == k)).getLast? with
        | some q => rfl
        | none => exact dlookup_dinsert_ne _ _ _ _ hk'

/-- A dict contains a key exactly when some entry carries it. -/
theorem any_key_iff_mem {α : Type} (m : List (String × α)) (k : String) :
    m.any (fun p => p.1 == k) = true ↔ k ∈ m.map (fun p => p.1) := by
  rw [List.any_eq_true, List.mem_map]
  constructor
  · rintro ⟨p, hp, hpk⟩
    exact ⟨p, hp, by simpa using hpk⟩
  · rintro ⟨p, hp, hpk⟩
    exact ⟨p, hp, by simpa using hpk⟩

/-- Overwriting a key in place keeps the key list. -/
theorem keys_map_overwrite {α : Type} (m : List (String × α)) (k : String)
    (v : α) :
    (m.map (fun p => if p.1 == k then (k, v) else p)).map (fun p => p.1)
      = m.map (fun p => p.1) := by
  induction m with
  | nil => rfl
  | cons p t ih =>
      rw [List.map_cons, List.map_cons, List.map_cons]
      by_cases hp : (p.1 == k) = true
      · rw [if_pos hp, ih]
        have : p.1 = k := by
          simpa using hp
        rw [this]
  
      · rw [if_neg hp, ih]

/-- The key list after a `dict` assignment. -/
theorem keys_dinsert {α : Type} (m : List (String × α)) (k : String) (v : α) :
    (dinsert m k v).map (fun p => p.1)
      = if k ∈ m.map (fun p => p.1) then m.map (fun p => p.1)
        else m.map (fun p => p.1) ++ [k] := by
  unfold dinsert
  by_cases hany : (m.any (fun p => p.1 == k)) = true
  · rw [if_pos hany, keys_map_overwrite,
      if_pos ((any_key_iff_mem m k).mp hany)]
  · rw [if_neg hany, if_neg (fun hmem => hany ((any_key_iff_mem m k).mpr hmem))]
    simp

/-- `firstDedupAux` only depends on the membership of `seen`. -/
theorem firstDedupAux_congr (l : List String) :
    ∀ (seen seen2 : List String), (∀ x, x ∈ seen ↔ x ∈ seen2) →
    firstDedupAux seen l = firstDedupAux seen2 l := by
  induction l with
  | nil =>
      intro seen seen2 h
      rfl
  | cons v vs ih =>
      intro seen seen2 h
      rw [firstDedupAux, firstDedupAux]
      by_cases hv : v ∈ seen
      · rw [if_pos hv, if_pos ((h v).mp hv), ih seen seen2 h]
      · rw [if_neg hv, if_neg (fun h2 => hv ((h v).mpr h2))]
        rw [ih (v :: seen) (v :: seen2) ?_]
        intro x
        simp only [List.mem_cons]
        exact or_congr Iff.rfl (h x)

/-- Key list of a fold of `dict` assignments: the initial keys followed by
the first occurrences of the new keys. -/
theorem keys_foldl_dinsert {α : Type} (ps : List (String × α)) :
    ∀ (m : List (String × α)),
    (ps.foldl (fun m2 p => dinsert m2 p.1 p.2) m).map (fun p => p.1)
      = m.map (fun p => p.1)
        ++ firstDedupAux (m.map (fun p => p.1)) (ps.map (fun p => p.1)) := by
  induction ps with
  | nil =>
      intro m
      simp [firstDedupAux]
  | cons p t ih =>
      intro m
      rw [List.foldl_cons, ih, List.map_cons, firstDedupAux]
      by_cases hp : p.1 ∈ m.map (fun q => q.1)
      · rw [if_pos hp]
        have hk := keys_dinsert m p.1 p.2
        rw [if_pos hp] at hk
        rw [hk]
      · rw [if_neg hp]
        have hk := keys_dinsert m p.1 p.2
        rw [if_neg hp] at hk
        rw [hk, firstDedupAux_congr (t.map (fun q => q.1))
          ((m.map (fun q => q.1)) ++ [p.1]) (p.1 :: m.map (fun q => q.1)) ?_]
        · rw [List.append_assoc]
          rfl
        · intro x
          constructor
          · intro hx
            rcases List.mem_append.mp hx with h1 | h1
            · exact List.mem_cons_of_mem _ h1
            · rw [List.mem_singleton.mp h1]
              exact List.mem_cons_self _ _
          · intro hx
            rcases List.mem_cons.mp hx with h1 | h1
            · refine List.mem_append.mpr (Or.inr ?_)
              rw [h1]
              exact List.mem_singleton.mpr rfl
            · exact List.mem_append.mpr (Or.inl h1)

/-- The per-file fold of `convert_labels` is a fold of `dict` assignments
over the per-file key/value pairs, and collects every video name in file
order. -/
theorem convert_fold (mode : Mode) (bid : List (String × Nat)) (K : Nat)
    (files : List (String × List Row)) :
    ∀ (m : List (String × LabelVal)) (vs : List String),
    (files.foldl (convertStep mode bid K) (m, vs)).1
      = (files.map (fun f => (fileVname f, fileLabel mode bid K f))).foldl
          (fun m2 p => dinsert m2 p.1 p.2) m
    ∧ (files.foldl (convertStep mode bid K) (m, vs)).2
      = vs ++ files.map fileVname := by
  induction files with
  | nil =>
      intro m vs
      exact ⟨rfl, (List.append_nil vs).symm⟩
  | cons f t ih =>
      intro m vs
      rw [List.foldl_cons, convertStep_eq, List.map_cons, List.foldl_cons,
        List.map_cons]
      have h2 := ih (dinsert m (fileVname f) (fileLabel mode bid K f))
        (vs ++ [fileVname f])
      refine ⟨h2.1, ?_⟩
      rw [h2.2, List.append_assoc]
      rfl

/-- Deduplicating a duplicate-free list of unseen names is the identity. -/
theorem firstDedupAux_eq_self (l : List String) :
    ∀ (seen : List String), l.Nodup → (∀ x ∈ l, x ∉ seen) →
    firstDedupAux seen l = l := by
  induction l with
  | nil =>
      intro seen _ _
      rfl
  | cons v vs ih =>
      intro seen hnd hsn
      rw [firstDedupAux, if_neg (hsn v (List.mem_cons_self _ _))]
      rw [ih (v :: seen) (List.nodup_cons.mp hnd).2 ?_]
      intro x hx hmem
      rcases List.mem_cons.mp hmem with h1 | h1
      · exact (List.nodup_cons.mp hnd).1 (h1 ▸ hx)
      · exact hsn x (List.mem_cons_of_mem _ hx) h1

/-- First-occurrence deduplication is idempotent. -/
theorem firstDedup_idem (l : List String) :
    firstDedup (firstDedup l) = firstDedup l :=
  firstDedupAux_eq_self _ [] (firstDedup_nodup l)
    (fun x _ h => (List.not_mem_nil x) h)

/-- C10: when several files resolve to the same video name, the labels map
holds exactly one entry per name, carrying the dense sequence of the
last-processed file with that name; the splits are computed from the
first-occurrence deduplicated name list, so a duplicated video keeps the
position of its first occurrence. -/
theorem duplicate_video_last_writer (mode : Mode)
    (files : List (String × List Row)) (v : String) :
    (∀ o, convertLabels mode files = some o → o = convertOut mode files)
    ∧ dlookup (convertOut mode files).labels v
      = (match ((files.map (fun f => (fileVname f, fileLabel mode
          (convertBehToId mode (collectAllBehaviors (files.map (fun f => f.2))))
          (collectAllBehaviors (files.map (fun f => f.2))).length f))).filter
            (fun p => p.1 == v)).getLast? with
        | some p => some p.2
        | none => none)
    ∧ (convertOut mode files).labels.map (fun p => p.1)
        = firstDedup (files.map fileVname)
    ∧ (convertOut mode files).splits = makeSplits (files.map fileVname)
    ∧ makeSplits (files.map fileVname)
        = makeSplits (firstDedup (files.map fileVname)) := by
  refine ⟨?_, ?_, ?_, ?_, ?_⟩
  · intro o ho
    unfold convertLabels at ho
    split_ifs at ho
    exact (Option.some.inj ho).symm
  · show dlookup (files.foldl (convertStep mode
        (convertBehToId mode (collectAllBehaviors (files.map (fun f => f.2))))
        (collectAllBehaviors (files.map (fun f => f.2))).length) ([], [])).1 v
      = _
    rw [(convert_fold mode _ _ files [] []).1, dlookup_foldl_dinsert]
    cases ((files.map (fun f => (fileVname f, fileLabel mode
        (convertBehToId mode (collectAllBehaviors (files.map (fun f => f.2))))
        (collectAllBehaviors (files.map (fun f => f.2))).length f))).filter
          (fun p => p.1 == v)).getLast? with
    | some p => rfl
    | none => rfl
  · show (files.foldl (convertStep mode
        (convertBehToId mode (collectAllBehaviors (files.map (fun f => f.2))))
        (collectAllBehaviors (files.map (fun f => f.2))).length)
          ([], [])).1.map (fun p => p.1) = _
    rw [(convert_fold mode _ _ files [] []).1, keys_foldl_dinsert]
    simp only [List.map_nil, List.nil_append, List.map_map]
    rfl
  · show makeSplits (files.foldl (convertStep mode
        (convertBehToId mode (collectAllBehaviors (files.map (fun f => f.2))))
        (collectAllBehaviors (files.map (fun f => f.2))).length) ([], [])).2
      = _
    rw [(convert_fold mode _ _ files [] []).2]
    rfl
  · unfold makeSplits
    rw [firstDedup_idem]

/-- Two single-record files resolving to the same media name `"v.mp4"`. -/
def rowDupA : Row :=
  { time := some "1.0", behavior := some "rest", status := some "",
    fps := some "1", total := some "2", media := some "v.mp4" }

/-- Second record for the same video, overwriting the first file's entry. -/
def rowDupB : Row :=
  { time := some "0", behavior := some "rest", status := some "",
    fps := some "1", total := some "2", media := some "v.mp4" }

/-- Witness for `duplicate_video_last_writer`: the later file wins, and the
conversion output is the assembled descriptor. -/
theorem duplicate_video_last_writer_witness :
    convertOut Mode.single [("f1", [rowDupA]), ("f2", [rowDupB])]
        = convertOut Mode.single [("f1", [rowDupA]), ("f2", [rowDupB])]
    ∧ dlookup (convertOut Mode.single
        [("f1", [rowDupA]), ("f2", [rowDupB])]).labels "v.mp4"
        = some (LabelVal.sl [1, 0]) :=
  ⟨(duplicate_video_last_writer Mode.single
      [("f1", [rowDupA]), ("f2", [rowDupB])] "v.mp4").1 _ (by decide),
    by decide⟩
